import Mathlib

/-!
Verification of the binary-mask RLE codec and mask-geometry utilities of the
`cropaway` repository (`Resources/python/mask_utils.py`), as a shallow
embedding.

Conventions of the embedding:
* A numpy `(H, W)` uint8 array is a `Mask`: explicit `height`, `width` and a
  row-major `pixels : List Nat` (each entry a byte value).
* Byte strings are `List Nat` (each entry `< 256`).
* A Python function that can raise an uncaught exception is embedded with an
  `Option` result, `none` standing for the raised exception; `int.to_bytes`
  raising `OverflowError` and `np.max` raising `ValueError` on a zero-size
  array are embedded this way.
* `zlib.compress`/`base64.b64encode` and their inverses are modelled by an
  abstract `Transport` layer: a pair of functions where wrapping always
  succeeds, unwrapping may fail (corrupt stream / invalid base64), and
  unwrapping a wrapped payload gives the payload back.  All codec logic is
  proved over the pre-compression byte stream, which the transport layer
  carries verbatim.
* numpy float32 weight arithmetic in `combine_masks` is embedded with exact
  rationals; every concrete input used below keeps float32 exact.
-/

/-- A binary mask: a 2-D grid of byte values, row-major, with explicit
dimensions.  Mirrors the numpy `(H, W)` array of `mask_utils.py`. -/
structure Mask where
  height : Nat
  width : Nat
  pixels : List Nat
  deriving DecidableEq, Repr

/-- Binarization step of `mask_to_rle` (lines 21-25): `mask.max() > 1` remaps
every pixel by the `> 127` test, otherwise the values are kept (`astype` is
the identity on values that are already `≤ 1`).  `np.max` of a zero-size
array raises `ValueError`, embedded as `none`. -/
def binarize (m : Mask) : Option (List Nat) :=
  match m.pixels with
  | [] => none
  | p :: ps =>
    some (if 1 < ps.foldl max p then
            (p :: ps).map (fun v => if 127 < v then 1 else 0)
          else p :: ps)

/-- Indices where consecutive values of `[0] ++ flat ++ [0]` differ
(`np.where(padded[1:] != padded[:-1])[0]`, lines 34-38). -/
def changeIndices (flat : List Nat) : List Nat :=
  let padded := 0 :: (flat ++ [0])
  (List.range (padded.length - 1)).filter
    (fun i => padded.getD (i + 1) 0 != padded.getD i 0)

/-- Differences of consecutive entries (`np.diff`, line 41). -/
def diffs : List Nat → List Nat
  | [] => []
  | [_] => []
  | a :: b :: rest => (b - a) :: diffs (b :: rest)

/-- Split one run length into 16-bit-sized entries (lines 56-61): while the
run exceeds 65535, emit `65535` followed by a zero-length run of the opposite
polarity, then emit the remainder.  Structural recursion on a fuel argument
that starts at the run length itself; each loop iteration removes 65535, so
the fuel never runs out on the branch that uses it. -/
def splitRunGo : Nat → Nat → List Nat
  | 0, rl => [rl]
  | fuel + 1, rl =>
    if 65535 < rl then 65535 :: 0 :: splitRunGo fuel (rl - 65535) else [rl]

/-- The `while rl > 65535` loop of lines 57-61 for a single run length. -/
def splitRun (rl : Nat) : List Nat := splitRunGo rl rl

/-- Serialize the (already split) run lengths as little-endian `u16` pairs
(lines 54-61). -/
def runsBytes (runLens : List Nat) : List Nat :=
  (runLens.flatMap splitRun).flatMap (fun rl => [rl % 256, rl / 256 % 256])

/-- Model of `n.to_bytes(nbytes, 'little')`: `none` models the `OverflowError` raised
when `n` does not fit. -/
def toBytesLE (nbytes n : Nat) : Option (List Nat) :=
  if 256 ^ nbytes ≤ n then none
  else some ((List.range nbytes).map (fun i => n / 256 ^ i % 256))

/-- Serialization of a binarized flattened mask (lines 31-63): header
`[start_value, height(2), width(2), num_runs(4)]` followed by the run bytes.
Note `num_runs` is `len(run_lengths)` computed before any long-run splitting.
The `[]` branch is the `len(flat) == 0` branch of line 31 (empty
pre-compression payload); it is unreachable because `binarize` already fails
on a zero-size mask, exactly as `mask.max()` on line 22 raises first. -/
def rleFromFlat (height width : Nat) (flat : List Nat) : Option (List Nat) :=
  match flat with
  | [] => some []
  | f0 :: _ =>
    let runLens := diffs (changeIndices flat)
    match toBytesLE 2 height, toBytesLE 2 width, toBytesLE 4 runLens.length with
    | some hB, some wB, some nB => some (f0 :: (hB ++ wB ++ nB ++ runsBytes runLens))
    | _, _, _ => none

/-- Model of `mask_to_rle` (lines 11-64) up to the final `zlib.compress`: the
pre-compression byte stream, or `none` when the Python code raises. -/
def mask_to_rle_data (m : Mask) : Option (List Nat) :=
  match binarize m with
  | none => none
  | some flat => rleFromFlat m.height m.width flat

/-- Abstract model of the `zlib.compress`/`base64.b64encode` transport layer
and its inverse: wrapping never fails, unwrapping fails on corrupt input, and
a wrapped payload unwraps to itself. -/
structure Transport where
  wrap : List Nat → List Nat
  unwrap : List Nat → Option (List Nat)
  round_trip : ∀ d, unwrap (wrap d) = some d

/-- The trivial transport layer, used to evaluate the codec on concrete
inputs. -/
def idTransport : Transport where
  wrap := id
  unwrap := some
  round_trip := fun _ => rfl

/-- Model of `mask_to_base64` (lines 117-122): serialize, then wrap for transport. -/
def mask_to_base64 (t : Transport) (m : Mask) : Option (List Nat) :=
  (mask_to_rle_data m).map t.wrap

/-- Header field `start_value = data[0]` (line 83). -/
def hdrStart (data : List Nat) : Nat := data.getD 0 0

/-- Header field `height = int.from_bytes(data[1:3], 'little')` (line 84). -/
def hdrHeight (data : List Nat) : Nat := data.getD 1 0 + 256 * data.getD 2 0

/-- Header field `width = int.from_bytes(data[3:5], 'little')` (line 85). -/
def hdrWidth (data : List Nat) : Nat := data.getD 3 0 + 256 * data.getD 4 0

/-- Header field `num_runs = int.from_bytes(data[5:9], 'little')` (line 86). -/
def hdrNumRuns (data : List Nat) : Nat :=
  data.getD 5 0 + 256 * data.getD 6 0 + 65536 * data.getD 7 0
    + 16777216 * data.getD 8 0

/-- Read up to `numRuns` little-endian `u16` entries starting at `offset`,
stopping early when fewer than 2 bytes remain (lines 88-96). -/
def readRuns (data : List Nat) : Nat → Nat → List Nat
  | 0, _ => []
  | n + 1, offset =>
    if data.length < offset + 2 then []
    else (data.getD offset 0 + 256 * data.getD (offset + 1) 0)
      :: readRuns data n (offset + 2)

/-- The run entries actually read by the decoder. -/
def hdrRuns (data : List Nat) : List Nat := readRuns data (hdrNumRuns data) 9

/-- One iteration of the fill loop of `rle_to_mask` (lines 103-109): clamp
the run to the remaining budget (`rl = len(flat) - pos` when it would
overrun), and when the clamped run is positive overwrite that segment with
`current_value * 255` and advance the position.  `current_value` is an `Int`
because the Python `1 - current_value` goes negative when the start byte
exceeds 1; the written byte is reduced mod 256 as the uint8 buffer
assignment does. -/
def fillStep (flat : List Nat) (pos : Nat) (cur : Int) (rl : Nat) :
    List Nat × Nat :=
  let rl2 := if flat.length < pos + rl then flat.length - pos else rl
  if 0 < rl2 then
    (flat.take pos ++ List.replicate rl2 ((cur * 255 % 256).toNat)
      ++ flat.drop (pos + rl2), pos + rl2)
  else (flat, pos)

/-- The fill loop of `rle_to_mask` (lines 100-109) over all run entries,
flipping the polarity after every run (clamped-to-zero runs included).
Returns the buffer, the final write position and the final polarity. -/
def fillRunsAux : List Nat → Nat → Int → List Nat → List Nat × Nat × Int
  | flat, pos, cur, [] => (flat, pos, cur)
  | flat, pos, cur, rl :: rest =>
    fillRunsAux (fillStep flat pos cur rl).1 (fillStep flat pos cur rl).2
      (1 - cur) rest

/-- The decoder's buffer/position/polarity after processing the run entries
of `data` (lines 99-109): a `height*width` zero buffer filled from the parsed
runs, starting at `start_value`. -/
def decodeFill (data : List Nat) : List Nat × Nat × Int :=
  fillRunsAux (List.replicate (hdrHeight data * hdrWidth data) 0) 0
    ((hdrStart data : Int)) (hdrRuns data)

/-- Model of `rle_to_mask` (lines 67-114) on the decompressed byte stream: `none` for
a payload shorter than the 9-byte header, otherwise the reconstructed mask of
the declared dimensions. -/
def rle_decode (data : List Nat) : Option Mask :=
  if data.length < 9 then none
  else some ⟨hdrHeight data, hdrWidth data, (decodeFill data).1⟩

/-- Model of `base64_to_mask` (lines 125-134): unwrap the transport string (any
decompression/base64 failure gives `none`, as the `except` blocks return
`None`), then decode. -/
def base64_to_mask (t : Transport) (s : List Nat) : Option Mask :=
  match t.unwrap s with
  | none => none
  | some data => rle_decode data

/-- Does row `r` contain a foreground (`> 0`) pixel?
(`np.any(mask > 0, axis=1)`, line 148). -/
def rowHasFg (m : Mask) (r : Nat) : Bool :=
  (List.range m.width).any (fun c => 0 < m.pixels.getD (r * m.width + c) 0)

/-- Does column `c` contain a foreground (`> 0`) pixel?
(`np.any(mask > 0, axis=0)`, line 149). -/
def colHasFg (m : Mask) (c : Nat) : Bool :=
  (List.range m.height).any (fun r => 0 < m.pixels.getD (r * m.width + c) 0)

/-- Model of `get_bounding_box` (lines 137-165).  The `np.max` of a zero-size mask raises
(`none`).  An all-zero mask gives the full frame `(0, 0, 1, 1)`; otherwise
the box is assembled from the first/last foreground row and column indices
(`np.where(rows)[0][[0, -1]]` is head/last of the filtered index list),
normalized by width and height as exact rationals. -/
def get_bounding_box (m : Mask) : Option (ℚ × ℚ × ℚ × ℚ) :=
  match m.pixels with
  | [] => none
  | p :: ps =>
    if ps.foldl max p = 0 then some (0, 0, 1, 1)
    else
      let rows := (List.range m.height).filter (fun r => rowHasFg m r)
      let cols := (List.range m.width).filter (fun c => colHasFg m c)
      match rows.head?, rows.getLast?, cols.head?, cols.getLast? with
      | some y0, some y1, some x0, some x1 =>
        some ((x0 : ℚ) / (m.width : ℚ), (y0 : ℚ) / (m.height : ℚ),
          ((x1 - x0 + 1 : ℕ) : ℚ) / (m.width : ℚ),
          ((y1 - y0 + 1 : ℕ) : ℚ) / (m.height : ℚ))
      | _, _, _, _ => some (0, 0, 1, 1)

/-- Model of `combine_masks` (lines 190-213) with exact rational weights: an empty
mask list raises `ValueError("No masks to combine")`; otherwise the masks'
raw pixel values are summed with their weights (`zip` truncates to the
shorter list, `sum(weights)` sums the whole weight list) and thresholded
strictly against `0.5 * sum(weights)`, producing `255`/`0` pixels.  The
shape-mismatch behaviour of the numpy broadcast is not modelled: as in the
spec, all masks are assumed to share `masks[0]`'s shape. -/
def combine_masks (masks : List Mask) (weights : Option (List ℚ)) :
    Except String Mask :=
  match masks with
  | [] => Except.error "No masks to combine"
  | m0 :: _ =>
    let ws := match weights with
      | none => List.replicate masks.length (1 : ℚ)
      | some l => l
    let combined := (masks.zip ws).foldl
      (fun acc p => List.zipWith (fun (c : ℚ) (q : Nat) => c + (q : ℚ) * p.2) acc p.1.pixels)
      (List.replicate (m0.height * m0.width) (0 : ℚ))
    let total := ws.foldl (· + ·) 0
    Except.ok ⟨m0.height, m0.width,
      combined.map (fun c => if (1 / 2 : ℚ) * total < c then 255 else 0)⟩

/-- Total weight `sum(weights)` (line 213). -/
def wTotal (ws : List ℚ) : ℚ := ws.foldl (· + ·) 0

/-- The weighted sum of the masks' raw pixel values at flat index `j`
(lines 208-210, evaluated pointwise). -/
def wRawSum (masks : List Mask) (ws : List ℚ) (j : Nat) : ℚ :=
  (masks.zip ws).foldl (fun a p => a + (p.1.pixels.getD j 0 : ℚ) * p.2) 0

/-! ### Helper lemmas about the decoder's fill loop -/

/-- Reading past a spliced-in segment sees the original list. -/
lemma getD_splice (l : List Nat) (pos k v i : Nat) (hpk : pos + k ≤ l.length)
    (hi : pos + k ≤ i) :
    (l.take pos ++ List.replicate k v ++ l.drop (pos + k)).getD i 0 =
      l.getD i 0 := by
  have hlen : (l.take pos ++ List.replicate k v).length = pos + k := by
    simp only [List.length_append, List.length_take, List.length_replicate]
    omega
  rw [List.getD_append_right _ _ _ _ (by omega)]
  rw [hlen, List.getD_eq_getElem?_getD, List.getD_eq_getElem?_getD,
    List.getElem?_drop]
  have : pos + k + (i - (pos + k)) = i := by omega
  rw [this]

lemma fillStep_length (flat : List Nat) (pos : Nat) (cur : Int) (rl : Nat)
    (h : pos ≤ flat.length) :
    (fillStep flat pos cur rl).1.length = flat.length ∧
      pos ≤ (fillStep flat pos cur rl).2 ∧
      (fillStep flat pos cur rl).2 ≤ flat.length := by
  unfold fillStep
  by_cases hc : flat.length < pos + rl
  · simp only [hc, ite_true]
    by_cases h2 : 0 < flat.length - pos
    · simp only [if_pos h2, List.length_append, List.length_take,
        List.length_replicate, List.length_drop]
      omega
    · simp only [if_neg h2]
      exact ⟨trivial, Nat.le_refl _, h⟩
  · simp only [hc, ite_false]
    by_cases h2 : 0 < rl
    · simp only [if_pos h2, List.length_append, List.length_take,
        List.length_replicate, List.length_drop]
      omega
    · simp only [if_neg h2]
      exact ⟨trivial, Nat.le_refl _, h⟩

lemma fillStep_getD_ge (flat : List Nat) (pos : Nat) (cur : Int) (rl : Nat)
    (i : Nat) (h : pos ≤ flat.length) (hi : (fillStep flat pos cur rl).2 ≤ i) :
    (fillStep flat pos cur rl).1.getD i 0 = flat.getD i 0 := by
  unfold fillStep at hi ⊢
  by_cases hc : flat.length < pos + rl
  · simp only [hc, ite_true] at hi ⊢
    by_cases h2 : 0 < flat.length - pos
    · simp only [if_pos h2] at hi ⊢
      exact getD_splice _ _ _ _ _ (by omega) (by omega)
    · simp only [if_neg h2]
  · simp only [hc, ite_false] at hi ⊢
    by_cases h2 : 0 < rl
    · simp only [if_pos h2] at hi ⊢
      exact getD_splice _ _ _ _ _ (by omega) (by omega)
    · simp only [if_neg h2]

lemma fillRunsAux_length (runs : List Nat) :
    ∀ (flat : List Nat) (pos : Nat) (cur : Int), pos ≤ flat.length →
      (fillRunsAux flat pos cur runs).1.length = flat.length ∧
        pos ≤ (fillRunsAux flat pos cur runs).2.1 ∧
        (fillRunsAux flat pos cur runs).2.1 ≤ flat.length := by
  induction runs with
  | nil => intro flat pos cur h; exact ⟨rfl, le_refl _, h⟩
  | cons rl rest ih =>
    intro flat pos cur h
    have hs := fillStep_length flat pos cur rl h
    have := ih (fillStep flat pos cur rl).1 (fillStep flat pos cur rl).2
      (1 - cur) (by omega)
    unfold fillRunsAux
    refine ⟨by omega, by omega, by omega⟩

lemma fillRunsAux_getD_ge (runs : List Nat) :
    ∀ (flat : List Nat) (pos : Nat) (cur : Int) (i : Nat), pos ≤ flat.length →
      (fillRunsAux flat pos cur runs).2.1 ≤ i →
      (fillRunsAux flat pos cur runs).1.getD i 0 = flat.getD i 0 := by
  induction runs with
  | nil => intro flat pos cur i h hi; rfl
  | cons rl rest ih =>
    intro flat pos cur i h hi
    have hs := fillStep_length flat pos cur rl h
    have hmono := fillRunsAux_length rest (fillStep flat pos cur rl).1
      (fillStep flat pos cur rl).2 (1 - cur) (by omega)
    unfold fillRunsAux at hi ⊢
    rw [ih (fillStep flat pos cur rl).1 (fillStep flat pos cur rl).2
      (1 - cur) i (by omega) hi]
    exact fillStep_getD_ge flat pos cur rl i h (by omega)

lemma getD_replicate_zero (n i : Nat) :
    (List.replicate n (0 : Nat)).getD i 0 = 0 := by
  rw [List.getD_eq_getElem?_getD, List.getElem?_replicate]
  split <;> rfl

/-! ### C10: shape of every successfully decoded mask -/

/-- C10: whenever `rle_to_mask` succeeds, the returned mask carries exactly
the height and width declared in the stream's header and exactly
`height * width` pixels: every run is clamped to the remaining budget, so
filling can neither overrun nor change the declared shape. -/
theorem decode_shape_invariant (data : List Nat) (m : Mask)
    (h : rle_decode data = some m) :
    m.height = hdrHeight data ∧ m.width = hdrWidth data ∧
      m.pixels.length = m.height * m.width := by
  unfold rle_decode at h
  by_cases h9 : data.length < 9
  · rw [if_pos h9] at h
    exact absurd h (by simp)
  · rw [if_neg h9] at h
    injection h with h2
    subst h2
    refine ⟨rfl, rfl, ?_⟩
    show (decodeFill data).1.length = hdrHeight data * hdrWidth data
    unfold decodeFill
    have hl := fillRunsAux_length (hdrRuns data)
      (List.replicate (hdrHeight data * hdrWidth data) 0) 0
      ((hdrStart data : Int)) (by simp)
    simpa using hl.1

/-- Witness for C10 at a concrete stream (header `2×3`, one run of 6). -/
theorem decode_shape_invariant_witness :
    (⟨2, 3, [255, 255, 255, 255, 255, 255]⟩ : Mask).height =
        hdrHeight [1, 2, 0, 3, 0, 1, 0, 0, 0, 6, 0] ∧
      (⟨2, 3, [255, 255, 255, 255, 255, 255]⟩ : Mask).width =
        hdrWidth [1, 2, 0, 3, 0, 1, 0, 0, 0, 6, 0] ∧
      (⟨2, 3, [255, 255, 255, 255, 255, 255]⟩ : Mask).pixels.length =
        (⟨2, 3, [255, 255, 255, 255, 255, 255]⟩ : Mask).height *
          (⟨2, 3, [255, 255, 255, 255, 255, 255]⟩ : Mask).width :=
  decode_shape_invariant [1, 2, 0, 3, 0, 1, 0, 0, 0, 6, 0] _ (by decide)

/-! ### C5: truncation tolerance of the decoder -/

/-- C5 (amended): decoding any payload of at least the 9-byte header never
fails and returns a mask of the declared `height × width`, reading only the
run entries actually present; every pixel at or beyond the final write
position keeps the buffer's initial background value `0` (it is **not**
rewritten with the last polarity). -/
theorem truncated_decode_total (data : List Nat) (h9 : 9 ≤ data.length) :
    rle_decode data =
        some ⟨hdrHeight data, hdrWidth data, (decodeFill data).1⟩ ∧
      ∀ i, (decodeFill data).2.1 ≤ i → (decodeFill data).1.getD i 0 = 0 := by
  constructor
  · unfold rle_decode
    rw [if_neg (by omega)]
  · intro i hi
    unfold decodeFill at hi ⊢
    rw [fillRunsAux_getD_ge _ _ _ _ _ (by simp) hi]
    exact getD_replicate_zero _ _

/-- Witness for C5 at a concrete truncated stream: header declares 2 runs
but only one entry (5) is present. -/
theorem truncated_decode_total_witness :
    rle_decode [0, 1, 0, 10, 0, 2, 0, 0, 0, 5, 0] =
        some ⟨hdrHeight [0, 1, 0, 10, 0, 2, 0, 0, 0, 5, 0],
          hdrWidth [0, 1, 0, 10, 0, 2, 0, 0, 0, 5, 0],
          (decodeFill [0, 1, 0, 10, 0, 2, 0, 0, 0, 5, 0]).1⟩ ∧
      ∀ i, (decodeFill [0, 1, 0, 10, 0, 2, 0, 0, 0, 5, 0]).2.1 ≤ i →
        (decodeFill [0, 1, 0, 10, 0, 2, 0, 0, 0, 5, 0]).1.getD i 0 = 0 :=
  truncated_decode_total _ (by decide)

/-- C5 counterexample to the claim as stated: in the truncated stream
`[0,1,0,10,0,2,0,0,0,5,0]` (start polarity 0, 1×10, 2 declared runs, only
`[5]` present) the polarity after the available runs is 1 (foreground), yet
the five unfilled pixels are left at 0, not at `255 * last_polarity`:
unfilled pixels are always background, not "defaulted via the last known
polarity". -/
theorem truncated_decode_polarity_counterexample :
    rle_decode [0, 1, 0, 10, 0, 2, 0, 0, 0, 5, 0] =
        some ⟨1, 10, List.replicate 10 0⟩ ∧
      (decodeFill [0, 1, 0, 10, 0, 2, 0, 0, 0, 5, 0]).2.2 = 1 ∧
      (decodeFill [0, 1, 0, 10, 0, 2, 0, 0, 0, 5, 0]).1.getD 5 0 ≠ 255 := by
  decide

/-! ### C1: the encode/decode round-trip -/

/-- C1: the round-trip fails.  The 1×2 mask `[0, 255]` (one pixel, dims far
below 65535, values in {0,255}) encodes to a stream whose single run entry
is the *foreground* run length, because `np.diff(changes)` drops the run
before the first change index; the decoder then consumes that entry with the
*background* start polarity and returns the all-background mask `[0, 0]`. -/
theorem rle_roundtrip_leading_background_failure :
    mask_to_base64 idTransport ⟨1, 2, [0, 255]⟩ =
        some [0, 1, 0, 2, 0, 1, 0, 0, 0, 1, 0] ∧
      base64_to_mask idTransport [0, 1, 0, 2, 0, 1, 0, 0, 0, 1, 0] =
        some ⟨1, 2, [0, 0]⟩ ∧
      (⟨1, 2, [0, 0]⟩ : Mask) ≠ ⟨1, 2, [0, 255]⟩ := by
  decide

/-! ### C4: run count and run sum of the serialized stream -/

/-- C4: the serialized stream of the non-empty 1×1 all-background mask is
the bare 9-byte header: `run_count = 0`, no run entries follow, and the sum
of the run entries is 0 ≠ 1 = height * width.  The encoder's
`np.diff(changes)` drops the leading/trailing runs bounded by the sentinel
pad, so the run lengths do not cover the pixel grid. -/
theorem run_stream_sum_deficit :
    mask_to_rle_data ⟨1, 1, [0]⟩ = some [0, 1, 0, 1, 0, 0, 0, 0, 0] ∧
      hdrNumRuns [0, 1, 0, 1, 0, 0, 0, 0, 0] = 0 ∧
      ([0, 1, 0, 1, 0, 0, 0, 0, 0] : List Nat).drop 9 = [] := by
  decide

/-! ### C6: decode totality and the zero-pixel mask -/

/-- C6: encoding a zero-pixel mask does not produce a transport string at
all: `mask.max()` on line 22 raises `ValueError` on a zero-size array before
the `len(flat) == 0` branch (line 31) that would compress the empty payload
is ever reached, and `mask_to_base64` does not catch it. -/
theorem zero_pixel_mask_encode_failure :
    mask_to_base64 idTransport ⟨0, 3, []⟩ = none := by
  decide

/-! ### C3: encoding the 200000-pixel single-row mask -/

lemma binarize_of_ne_nil (m : Mask) (hne : m.pixels ≠ []) :
    ∃ flat, binarize m = some flat ∧ flat ≠ [] := by
  rcases hpx : m.pixels with _ | ⟨p, ps⟩
  · exact absurd hpx hne
  · unfold binarize
    rw [hpx]
    refine ⟨_, rfl, ?_⟩
    split
    · simp
    · simp

/-- The call `width.to_bytes(2, 'little')` (line 50) raises `OverflowError` whenever
the width does not fit 16 bits, so serialization fails for any non-empty
mask that wide. -/
lemma mask_to_rle_width_overflow (m : Mask) (hne : m.pixels ≠ [])
    (hw : 65536 ≤ m.width) : mask_to_rle_data m = none := by
  obtain ⟨flat, hb, hfne⟩ := binarize_of_ne_nil m hne
  unfold mask_to_rle_data
  rw [hb]
  obtain ⟨f0, fs, rfl⟩ := List.exists_cons_of_ne_nil hfne
  have hwnone : toBytesLE 2 m.width = none := by
    unfold toBytesLE
    rw [if_pos (by rw [show (256 : Nat) ^ 2 = 65536 from by norm_num]; exact hw)]
  rcases hh : toBytesLE 2 m.height with _ | hB <;>
    rcases hn : toBytesLE 4 (diffs (changeIndices (f0 :: fs))).length
        with _ | nB <;>
    simp [rleFromFlat, hwnone, hh, hn]

/-- C3: the 200000-pixel all-foreground single-row mask does not encode at
all: its width 200000 does not fit the 16-bit width field, so
`width.to_bytes(2, 'little')` raises before any run is emitted.  (Moreover,
even when the same 200000 pixels are laid out with admissible dimensions,
`num_runs` is written as `len(run_lengths)` *before* long-run splitting, so
the decoder reads 1 entry instead of the 7 emitted ones.) -/
theorem long_run_mask_encode_failure :
    mask_to_rle_data ⟨1, 200000, List.replicate 200000 255⟩ = none :=
  mask_to_rle_width_overflow _
    (by
      intro hx
      have hl := congrArg List.length hx
      simp only [List.length_replicate, List.length_nil] at hl
      omega)
    (by show (65536 : Nat) ≤ 200000; norm_num)

/-! ### C8: combine with an empty mask list -/

/-- C8: `combine_masks` fails with the `EmptyInput` error exactly when the
mask sequence is empty; a non-empty sequence always produces an `ok` mask,
never this error. -/
theorem combine_empty_input_iff (masks : List Mask) (w : Option (List ℚ)) :
    combine_masks masks w = Except.error "No masks to combine" ↔
      masks = [] := by
  cases masks with
  | nil => simp [combine_masks]
  | cons m0 rest => simp [combine_masks]

/-! ### C9: encode is invariant under the two mask value conventions -/

lemma foldl_max_f255 (bs : List Bool) (a : Nat) :
    ((bs.map (fun b => if b then (255 : Nat) else 0)).foldl max a) =
      if bs.any (fun b => b) then max a 255 else a := by
  induction bs generalizing a with
  | nil => simp
  | cons b bs ih => cases b <;> simp [ih, Nat.max_assoc]

lemma foldl_max_f01 (bs : List Bool) (a : Nat) :
    ((bs.map (fun b => if b then (1 : Nat) else 0)).foldl max a) =
      if bs.any (fun b => b) then max a 1 else a := by
  induction bs generalizing a with
  | nil => simp
  | cons b bs ih => cases b <;> simp [ih, Nat.max_assoc]

lemma map_thresh_f255 (bs : List Bool) :
    (bs.map (fun b => if b then (255 : Nat) else 0)).map
        (fun v => if 127 < v then 1 else 0) =
      bs.map (fun b => if b then (1 : Nat) else 0) := by
  induction bs with
  | nil => rfl
  | cons b bs ih => cases b <;> simp [ih]

lemma map_f01_eq_f255_of_all_false (bs : List Bool)
    (hb : bs.any (fun x => x) = false) :
    bs.map (fun b => if b then (1 : Nat) else 0) =
      bs.map (fun b => if b then (255 : Nat) else 0) := by
  induction bs with
  | nil => rfl
  | cons b bs ih =>
    simp only [List.any_cons, Bool.or_eq_false_iff] at hb
    obtain ⟨hb1, hb2⟩ := hb
    subst hb1
    simp [ih hb2]

/-- Binarization (lines 21-25) maps the `{0,1}` and `{0,255}` renderings of
one logical mask to the same flattened sequence. -/
lemma binarize_conventions (h w : Nat) (bits : List Bool) :
    binarize ⟨h, w, bits.map (fun b => if b then (1 : Nat) else 0)⟩ =
      binarize ⟨h, w, bits.map (fun b => if b then (255 : Nat) else 0)⟩ := by
  cases bits with
  | nil => rfl
  | cons b bs =>
    unfold binarize
    simp only [List.map_cons]
    rw [foldl_max_f01, foldl_max_f255]
    cases b
    · rcases hany : bs.any (fun x => x) with _ | _
      · simp [hany, map_f01_eq_f255_of_all_false bs hany]
      · simp [hany, map_thresh_f255]
    · rcases hany : bs.any (fun x => x) with _ | _
      · simp [hany, map_thresh_f255]
      · simp [hany, map_thresh_f255]

/-- C9: serializing the `{0,1}` rendering and the `{0,255}` rendering of any
logical binary mask yields identical byte streams (hence identical transport
strings after the deterministic compress/base64 stages): the binarization
step makes the two conventions indistinguishable to `mask_to_rle`. -/
theorem encode_binarization_invariance (h w : Nat) (bits : List Bool) :
    mask_to_rle_data ⟨h, w, bits.map (fun b => if b then (1 : Nat) else 0)⟩ =
      mask_to_rle_data
        ⟨h, w, bits.map (fun b => if b then (255 : Nat) else 0)⟩ := by
  unfold mask_to_rle_data
  rw [binarize_conventions]

/-! ### C2: the combine threshold rule -/

lemma getD_replicate_q (n i : Nat) :
    (List.replicate n (0 : ℚ)).getD i 0 = 0 := by
  rw [List.getD_eq_getElem?_getD, List.getElem?_replicate]
  split <;> rfl

lemma getD_zipWith_q (f : ℚ → Nat → ℚ) (l1 : List ℚ) (l2 : List Nat) (j : Nat)
    (h1 : j < l1.length) (h2 : j < l2.length) :
    (List.zipWith f l1 l2).getD j 0 = f (l1.getD j 0) (l2.getD j 0) := by
  induction l1 generalizing l2 j with
  | nil => simp at h1
  | cons a l1 ih =>
    cases l2 with
    | nil => simp at h2
    | cons b l2 =>
      cases j with
      | zero => rfl
      | succ j =>
        simp only [List.zipWith_cons_cons, List.getD_cons_succ]
        exact ih l2 j (by simpa using h1) (by simpa using h2)

lemma getD_map_thresh (f : ℚ → Nat) (l : List ℚ) (j : Nat)
    (hj : j < l.length) :
    (l.map f).getD j 0 = f (l.getD j 0) := by
  rw [List.getD_eq_getElem _ _ (by simpa using hj),
    List.getD_eq_getElem _ _ hj, List.getElem_map]

/-- Length of the accumulated weighted-sum buffer of `combine_masks`
(lines 208-210): the pointwise additions never change the buffer length when
every mask has the buffer's pixel count. -/
lemma combineFold_length (pairs : List (Mask × ℚ)) :
    ∀ acc : List ℚ, (∀ p ∈ pairs, p.1.pixels.length = acc.length) →
      (pairs.foldl
          (fun acc p =>
            List.zipWith (fun (c : ℚ) (q : Nat) => c + (q : ℚ) * p.2) acc p.1.pixels)
          acc).length = acc.length := by
  induction pairs with
  | nil => intro acc _; rfl
  | cons p ps ih =>
    intro acc hp
    have hplen : p.1.pixels.length = acc.length := hp p (List.mem_cons_self _ _)
    have hstep : (List.zipWith (fun (c : ℚ) (q : Nat) => c + (q : ℚ) * p.2)
        acc p.1.pixels).length = acc.length := by
      simp [List.length_zipWith, hplen]
    simp only [List.foldl_cons]
    rw [ih _ (fun q hq => by rw [hstep]; exact hp q (List.mem_cons_of_mem _ hq)),
      hstep]

/-- The accumulated buffer of `combine_masks`, read at one flat index: the
fold of pointwise `zipWith` additions equals the scalar fold of the masks'
raw pixel values at that index times their weights. -/
lemma combineFold_getD (pairs : List (Mask × ℚ)) :
    ∀ (acc : List ℚ) (j : Nat), j < acc.length →
      (∀ p ∈ pairs, p.1.pixels.length = acc.length) →
      (pairs.foldl
          (fun acc p =>
            List.zipWith (fun (c : ℚ) (q : Nat) => c + (q : ℚ) * p.2) acc p.1.pixels)
          acc).getD j 0 =
        pairs.foldl (fun a p => a + (p.1.pixels.getD j 0 : ℚ) * p.2)
          (acc.getD j 0) := by
  induction pairs with
  | nil => intro acc j _ _; rfl
  | cons p ps ih =>
    intro acc j hj hp
    have hplen : p.1.pixels.length = acc.length := hp p (List.mem_cons_self _ _)
    have hstep_len : (List.zipWith (fun (c : ℚ) (q : Nat) => c + (q : ℚ) * p.2)
        acc p.1.pixels).length = acc.length := by
      simp [List.length_zipWith, hplen]
    have hstep_getD : (List.zipWith (fun (c : ℚ) (q : Nat) => c + (q : ℚ) * p.2)
        acc p.1.pixels).getD j 0 = acc.getD j 0 + (p.1.pixels.getD j 0 : ℚ) * p.2 :=
      getD_zipWith_q _ _ _ _ hj (by omega)
    simp only [List.foldl_cons]
    rw [ih _ j (by rw [hstep_len]; exact hj)
      (fun q hq => by rw [hstep_len]; exact hp q (List.mem_cons_of_mem _ hq)),
      hstep_getD]

/-- C2 (amended): for same-shape masks, `combine_masks` marks a pixel
foreground (255) iff the weighted sum of the masks' **raw** pixel values
(0 or 255, not binarized to `pixel/255`) strictly exceeds half the total
weight, and every result pixel is 255 or 0.  With `{0,255}`-valued masks a
single weighted foreground vote already exceeds the threshold; the spec's
majority rule holds only for `{0,1}`-valued inputs. -/
theorem combine_raw_weighted_threshold (m0 : Mask) (rest : List Mask)
    (ws : List ℚ) (_hw : ws.length = (m0 :: rest).length)
    (hlen : ∀ mk ∈ m0 :: rest, mk.pixels.length = m0.height * m0.width) :
    ∃ res : Mask,
      combine_masks (m0 :: rest) (some ws) = Except.ok res ∧
        res.height = m0.height ∧ res.width = m0.width ∧
        res.pixels.length = m0.height * m0.width ∧
        ∀ j < m0.height * m0.width,
          (res.pixels.getD j 0 = 255 ↔
            (1 / 2 : ℚ) * wTotal ws < wRawSum (m0 :: rest) ws j) ∧
          (res.pixels.getD j 0 = 255 ∨ res.pixels.getD j 0 = 0) := by
  have hpairs : ∀ p ∈ (m0 :: rest).zip ws,
      p.1.pixels.length =
        (List.replicate (m0.height * m0.width) (0 : ℚ)).length := by
    intro p hp
    obtain ⟨a, b⟩ := p
    have hm := (List.of_mem_zip hp).1
    simpa using hlen _ hm
  have hok : combine_masks (m0 :: rest) (some ws) = Except.ok
      ⟨m0.height, m0.width,
        (((m0 :: rest).zip ws).foldl
            (fun acc p =>
              List.zipWith (fun (c : ℚ) (q : Nat) => c + (q : ℚ) * p.2) acc p.1.pixels)
            (List.replicate (m0.height * m0.width) (0 : ℚ))).map
          (fun c => if (1 / 2 : ℚ) * (ws.foldl (· + ·) 0) < c then 255
            else 0)⟩ := rfl
  have hClen : (((m0 :: rest).zip ws).foldl
      (fun acc p =>
        List.zipWith (fun (c : ℚ) (q : Nat) => c + (q : ℚ) * p.2) acc p.1.pixels)
      (List.replicate (m0.height * m0.width) (0 : ℚ))).length =
      m0.height * m0.width := by
    rw [combineFold_length _ _ hpairs]
    simp
  refine ⟨_, hok, rfl, rfl, ?_, ?_⟩
  · simpa using hClen
  · intro j hj
    have hCj : (((m0 :: rest).zip ws).foldl
        (fun acc p =>
          List.zipWith (fun (c : ℚ) (q : Nat) => c + (q : ℚ) * p.2) acc p.1.pixels)
        (List.replicate (m0.height * m0.width) (0 : ℚ))).getD j 0 =
        wRawSum (m0 :: rest) ws j := by
      rw [combineFold_getD _ _ j (by simpa using hj) hpairs,
        getD_replicate_q]
      rfl
    constructor
    · show ((((m0 :: rest).zip ws).foldl
          (fun acc p =>
            List.zipWith (fun (c : ℚ) (q : Nat) => c + (q : ℚ) * p.2) acc p.1.pixels)
          (List.replicate (m0.height * m0.width) (0 : ℚ))).map
        (fun c => if (1 / 2 : ℚ) * (ws.foldl (· + ·) 0) < c then 255
          else 0)).getD j 0 = 255 ↔ _
      rw [getD_map_thresh _ _ j (by rw [hClen]; exact hj), hCj]
      unfold wTotal
      split_ifs with hcond
      · exact iff_of_true rfl hcond
      · exact iff_of_false (by norm_num) hcond
    · show (((((m0 :: rest).zip ws).foldl
          (fun acc p =>
            List.zipWith (fun (c : ℚ) (q : Nat) => c + (q : ℚ) * p.2) acc p.1.pixels)
          (List.replicate (m0.height * m0.width) (0 : ℚ))).map
        (fun c => if (1 / 2 : ℚ) * (ws.foldl (· + ·) 0) < c then 255
          else 0)).getD j 0 = 255) ∨ _
      rw [getD_map_thresh _ _ j (by rw [hClen]; exact hj)]
      split_ifs
      · exact Or.inl rfl
      · exact Or.inr rfl

/-- Witness for C2 at three equal-weight 1×1 masks, foreground in exactly
one of them. -/
theorem combine_raw_weighted_threshold_witness :
    ∃ res : Mask,
      combine_masks [⟨1, 1, [255]⟩, ⟨1, 1, [0]⟩, ⟨1, 1, [0]⟩]
          (some [1, 1, 1]) = Except.ok res ∧
        res.height = (⟨1, 1, [255]⟩ : Mask).height ∧
        res.width = (⟨1, 1, [255]⟩ : Mask).width ∧
        res.pixels.length =
          (⟨1, 1, [255]⟩ : Mask).height * (⟨1, 1, [255]⟩ : Mask).width ∧
        ∀ j < (⟨1, 1, [255]⟩ : Mask).height * (⟨1, 1, [255]⟩ : Mask).width,
          (res.pixels.getD j 0 = 255 ↔
            (1 / 2 : ℚ) * wTotal [1, 1, 1] <
              wRawSum [⟨1, 1, [255]⟩, ⟨1, 1, [0]⟩, ⟨1, 1, [0]⟩] [1, 1, 1] j) ∧
          (res.pixels.getD j 0 = 255 ∨ res.pixels.getD j 0 = 0) :=
  combine_raw_weighted_threshold ⟨1, 1, [255]⟩ [⟨1, 1, [0]⟩, ⟨1, 1, [0]⟩]
    [1, 1, 1] (by decide) (by decide)

/-- Decidable equality on codec results, for evaluating `combine_masks` on
concrete inputs. -/
instance : DecidableEq (Except String Mask) := fun
  | .ok a, .ok b =>
    if h : a = b then .isTrue (congrArg Except.ok h)
    else .isFalse (fun hx => h (Except.ok.inj hx))
  | .error a, .error b =>
    if h : a = b then .isTrue (congrArg Except.error h)
    else .isFalse (fun hx => h (Except.error.inj hx))
  | .ok _, .error _ => .isFalse (fun hx => Except.noConfusion hx)
  | .error _, .ok _ => .isFalse (fun hx => Except.noConfusion hx)

/-- C2 counterexample to the claim as stated: combining three equal-weight
`{0,255}`-valued masks whose pixel is foreground in exactly **one** of them
yields a foreground pixel (the code sums raw values, and `255 > 1.5`),
whereas the claimed binarized rule `255/255 + 0 + 0 = 1 ≤ 1.5` demands
background. -/
theorem combine_binarized_vote_counterexample :
    combine_masks [⟨1, 1, [255]⟩, ⟨1, 1, [0]⟩, ⟨1, 1, [0]⟩] none =
        Except.ok ⟨1, 1, [255]⟩ ∧
      ¬((1 / 2 : ℚ) * 3 <
        (255 / 255 : ℚ) * 1 + (0 / 255 : ℚ) * 1 + (0 / 255 : ℚ) * 1) := by
  constructor
  · simp only [combine_masks, List.replicate, List.zip_cons_cons,
      List.zip_nil_right, List.foldl_cons, List.foldl_nil,
      List.zipWith_cons_cons, List.zipWith_nil_right, List.map_cons,
      List.map_nil]
    norm_num
  · norm_num

/-! ### C7: the bounding box -/

lemma le_foldl_max (ps : List Nat) : ∀ a, a ≤ ps.foldl max a := by
  induction ps with
  | nil => intro a; exact Nat.le_refl a
  | cons q qs ih =>
    intro a
    exact le_trans (Nat.le_max_left a q) (ih (max a q))

lemma mem_le_foldl_max (ps : List Nat) : ∀ a v, v ∈ ps → v ≤ ps.foldl max a := by
  induction ps with
  | nil =>
    intro a v hv
    cases hv
  | cons q qs ih =>
    intro a v hv
    rcases List.mem_cons.mp hv with h | h
    · subst h
      exact le_trans (Nat.le_max_right a v) (le_foldl_max qs (max a v))
    · exact ih (max a q) v h

lemma foldl_max_mem (ps : List Nat) : ∀ p, ps.foldl max p ∈ p :: ps := by
  induction ps with
  | nil => intro p; exact List.mem_cons_self _ _
  | cons q qs ih =>
    intro p
    rcases List.mem_cons.mp (ih (max p q)) with h | h
    · rcases max_choice p q with hm | hm
      · rw [List.foldl_cons, h, hm]
        exact List.mem_cons_self _ _
      · rw [List.foldl_cons, h, hm]
        exact List.mem_cons_of_mem _ (List.mem_cons_self _ _)
    · rw [List.foldl_cons]
      exact List.mem_cons_of_mem _ (List.mem_cons_of_mem _ h)

lemma cons_le_foldl_max (p : Nat) (ps : List Nat) (v : Nat)
    (hv : v ∈ p :: ps) : v ≤ ps.foldl max p := by
  rcases List.mem_cons.mp hv with h | h
  · subst h
    exact le_foldl_max ps v
  · exact mem_le_foldl_max ps p v h

lemma foldl_max_zero_of_all (p : Nat) (ps : List Nat)
    (h : ∀ v ∈ p :: ps, v = 0) : ps.foldl max p = 0 :=
  h _ (foldl_max_mem ps p)

lemma pairwise_filter_range (n : Nat) (q : Nat → Bool) :
    List.Pairwise (· < ·) ((List.range n).filter q) :=
  (List.pairwise_lt_range n).filter q

lemma mem_filter_range (n : Nat) (q : Nat → Bool) (a : Nat) :
    a ∈ (List.range n).filter q ↔ a < n ∧ q a = true := by
  simp [List.mem_filter, List.mem_range]

lemma head_min_of_pairwise (l : List Nat) (hp : List.Pairwise (· < ·) l)
    (a : Nat) (ha : l.head? = some a) : ∀ b ∈ l, a ≤ b := by
  cases l with
  | nil => cases ha
  | cons x t =>
    injection ha with ha
    subst ha
    intro b hb
    rcases List.mem_cons.mp hb with h | h
    · subst h
      exact Nat.le_refl _
    · exact Nat.le_of_lt ((List.pairwise_cons.mp hp).1 b h)

lemma getLast?_max_of_pairwise :
    ∀ l : List Nat, List.Pairwise (· < ·) l →
      ∀ g, l.getLast? = some g → ∀ b ∈ l, b ≤ g := by
  intro l
  induction l with
  | nil => intro _ g hg; cases hg
  | cons x t ih =>
    intro hp g hg b hb
    cases t with
    | nil =>
      simp only [List.getLast?_singleton, Option.some.injEq] at hg
      rcases List.mem_cons.mp hb with h | h
      · subst h; omega
      · cases h
    | cons y t2 =>
      have hg2 : (y :: t2).getLast? = some g := by
        simpa using hg
      rcases List.mem_cons.mp hb with h | h
      · subst h
        have hgm : g ∈ y :: t2 := by
          rw [List.getLast?_eq_getLast_of_ne_nil (by simp)] at hg2
          injection hg2 with hg2
          rw [← hg2]
          exact List.getLast_mem _
        exact Nat.le_of_lt ((List.pairwise_cons.mp hp).1 g hgm)
      · exact ih (List.pairwise_cons.mp hp).2 g hg2 b h

lemma filter_range_head (n : Nat) (q : Nat → Bool) (a : Nat) (han : a < n)
    (hqa : q a = true) (hmin : ∀ r < a, q r = false) :
    ((List.range n).filter q).head? = some a := by
  have hmem : a ∈ (List.range n).filter q :=
    (mem_filter_range n q a).mpr ⟨han, hqa⟩
  have hp := pairwise_filter_range n q
  rcases hl : (List.range n).filter q with _ | ⟨x, t⟩
  · rw [hl] at hmem
    cases hmem
  · have hxmem : x ∈ (List.range n).filter q := by
      rw [hl]
      exact List.mem_cons_self _ _
    have hx := (mem_filter_range n q x).mp hxmem
    rw [hl] at hp hmem
    have hax : x ≤ a := head_min_of_pairwise _ hp x rfl a hmem
    have hxa : a ≤ x := by
      by_contra hcon
      push_neg at hcon
      have hq0 := hmin x hcon
      rw [hq0] at hx
      exact absurd hx.2 (by simp)
    have hxea : x = a := by omega
    rw [hxea]
    rfl

lemma filter_range_getLast (n : Nat) (q : Nat → Bool) (b : Nat) (hbn : b < n)
    (hqb : q b = true) (hmax : ∀ r < n, b < r → q r = false) :
    ((List.range n).filter q).getLast? = some b := by
  have hmem : b ∈ (List.range n).filter q :=
    (mem_filter_range n q b).mpr ⟨hbn, hqb⟩
  have hp := pairwise_filter_range n q
  rcases hl : (List.range n).filter q with _ | ⟨x, t⟩
  · rw [hl] at hmem
    cases hmem
  · have hgl : ((x :: t) : List Nat).getLast? = some ((x :: t).getLast (by simp)) :=
      List.getLast?_eq_getLast_of_ne_nil (by simp)
    have hgmem : (x :: t).getLast (by simp) ∈ (List.range n).filter q := by
      rw [hl]
      exact List.getLast_mem _
    have hg := (mem_filter_range n q _).mp hgmem
    rw [hl] at hp hmem
    have hble : b ≤ (x :: t).getLast (by simp) :=
      getLast?_max_of_pairwise _ hp _ hgl b hmem
    have hgb : (x :: t).getLast (by simp) ≤ b := by
      by_contra hcon
      push_neg at hcon
      have hq0 := hmax _ hg.1 hcon
      rw [hq0] at hg
      exact absurd hg.2 (by simp)
    have : (x :: t).getLast (by simp) = b := by omega
    rw [hgl, this]

/-- The claim's "minimum foreground row index": the row contains a
foreground pixel and no earlier row does. -/
def isMinFgRow (m : Mask) (y0 : Nat) : Prop :=
  y0 < m.height ∧ rowHasFg m y0 = true ∧ ∀ r < y0, rowHasFg m r = false

/-- The claim's "maximum foreground row index". -/
def isMaxFgRow (m : Mask) (y1 : Nat) : Prop :=
  y1 < m.height ∧ rowHasFg m y1 = true ∧
    ∀ r < m.height, y1 < r → rowHasFg m r = false

/-- The claim's "minimum foreground column index". -/
def isMinFgCol (m : Mask) (x0 : Nat) : Prop :=
  x0 < m.width ∧ colHasFg m x0 = true ∧ ∀ c < x0, colHasFg m c = false

/-- The claim's "maximum foreground column index". -/
def isMaxFgCol (m : Mask) (x1 : Nat) : Prop :=
  x1 < m.width ∧ colHasFg m x1 = true ∧
    ∀ c < m.width, x1 < c → colHasFg m c = false

instance (m : Mask) (y0 : Nat) : Decidable (isMinFgRow m y0) := by
  unfold isMinFgRow; infer_instance

instance (m : Mask) (y1 : Nat) : Decidable (isMaxFgRow m y1) := by
  unfold isMaxFgRow; infer_instance

instance (m : Mask) (x0 : Nat) : Decidable (isMinFgCol m x0) := by
  unfold isMinFgCol; infer_instance

instance (m : Mask) (x1 : Nat) : Decidable (isMaxFgCol m x1) := by
  unfold isMaxFgCol; infer_instance

/-- C7 (amended): for every mask with at least one pixel, `get_bounding_box`
returns the full frame `(0,0,1,1)` when no pixel is foreground, and
otherwise `(x_min/width, y_min/height, (x_max-x_min+1)/width,
(y_max-y_min+1)/height)` over the minimum/maximum foreground row and column
indices.  (A zero-pixel mask makes `mask.max()` raise instead, see the
counterexample.) -/
theorem bounding_box_characterization (m : Mask) (hne : m.pixels ≠ []) :
    ((∀ v ∈ m.pixels, v = 0) → get_bounding_box m = some (0, 0, 1, 1)) ∧
      (∀ y0 y1 x0 x1, isMinFgRow m y0 → isMaxFgRow m y1 → isMinFgCol m x0 →
        isMaxFgCol m x1 →
        get_bounding_box m = some ((x0 : ℚ) / (m.width : ℚ),
          (y0 : ℚ) / (m.height : ℚ),
          ((x1 - x0 + 1 : ℕ) : ℚ) / (m.width : ℚ),
          ((y1 - y0 + 1 : ℕ) : ℚ) / (m.height : ℚ))) := by
  rcases hpx : m.pixels with _ | ⟨p, ps⟩
  · exact absurd hpx hne
  constructor
  · intro hz
    unfold get_bounding_box
    rw [hpx]
    simp [foldl_max_zero_of_all p ps (hpx ▸ hz)]
  · intro y0 y1 x0 x1 hy0 hy1 hx0 hx1
    have hrow := hy0.2.1
    unfold rowHasFg at hrow
    simp only [List.any_eq_true, List.mem_range, decide_eq_true_eq] at hrow
    obtain ⟨c, hc, hpix⟩ := hrow
    have hidx : y0 * m.width + c < m.pixels.length := by
      by_contra hcon
      push_neg at hcon
      rw [List.getD_eq_default _ _ hcon] at hpix
      omega
    have hvmem : m.pixels.getD (y0 * m.width + c) 0 ∈ m.pixels := by
      rw [List.getD_eq_getElem _ _ hidx]
      exact List.getElem_mem _
    have hfold : ¬ ps.foldl max p = 0 := by
      have hle := cons_le_foldl_max p ps (m.pixels.getD (y0 * m.width + c) 0)
        (by rw [← hpx]; exact hvmem)
      omega
    have hrh := filter_range_head m.height (fun r => rowHasFg m r) y0
      hy0.1 hy0.2.1 hy0.2.2
    have hrl := filter_range_getLast m.height (fun r => rowHasFg m r) y1
      hy1.1 hy1.2.1 hy1.2.2
    have hch := filter_range_head m.width (fun c => colHasFg m c) x0
      hx0.1 hx0.2.1 hx0.2.2
    have hcl := filter_range_getLast m.width (fun c => colHasFg m c) x1
      hx1.1 hx1.2.1 hx1.2.2
    unfold get_bounding_box
    rw [hpx]
    simp [hfold, hrh, hrl, hch, hcl]

/-- Witness for C7 at the 10×10 mask with a single foreground pixel at
row 0, column 0. -/
theorem bounding_box_characterization_witness :
    get_bounding_box ⟨10, 10, 255 :: List.replicate 99 0⟩ =
      some (0, 0, (1 : ℚ) / 10, (1 : ℚ) / 10) := by
  have h := (bounding_box_characterization ⟨10, 10, 255 :: List.replicate 99 0⟩
    (by simp)).2 0 0 0 0 (by decide) (by decide) (by decide) (by decide)
  simpa using h

/-- C7 counterexample to the claim as stated: the zero-pixel `0×0` mask has
no foreground pixel, but `get_bounding_box` does not return `(0,0,1,1)` for
it — `mask.max()` raises `ValueError` on a zero-size array (modelled as
`none`). -/
theorem bounding_box_empty_mask_counterexample :
    get_bounding_box ⟨0, 0, []⟩ = none := rfl
